import Mathlib

/-!
Verification of the MarkovMusic repository (src/markov_music.py).

The embedding below translates the model/generation core of the source:
the `Note` value type with its equality, hash and rounding transform, the
training maps built by `add_to_map`, and the backoff generator `generate`
with its weighted sampler `pick`.

Modelling conventions:
* Python ints are `Int`; Python `%` on a positive modulus agrees with
  `Int.emod`.
* Python floats (the per-source weights and tick arithmetic) are modelled
  as exact rationals `Rat`.
* The parallel dictionaries `option_map` / `count_map` are updated in
  lockstep with identical keys and parallel lists in the source; they are
  modelled as a single insertion-ordered association list from keys to
  lists of (continuation, count) pairs, which preserves iteration order,
  lookup behaviour and list positions exactly.
* The terminal marker `None` is `Option.none`; a continuation is an
  `Option Note`.
* Ambient randomness (`random.choice`, `random.choices`) is modelled by
  explicit oracle arguments: natural numbers reduced modulo the list
  length for uniform choices, and a stream of rationals driving the
  cumulative-weight draw of `random.choices`.
* The unbounded `while True` loop of `generate` is modelled with an
  explicit fuel argument; every theorem about it holds for all fuel.
-/

/-- The `Note` record of the source: seven musically meaningful integer
fields plus an auxiliary `timestamp`. -/
structure Note where
  key : Int
  start_velocity : Int
  end_velocity : Int
  note_duration : Int
  next_note_delay : Int
  tempo : Int
  instrument : Int
  timestamp : Int
deriving DecidableEq, Repr

/-- `Note.__eq__`: equality over the seven fields, ignoring `timestamp`. -/
def Note.eq (a b : Note) : Bool :=
  a.key == b.key && a.start_velocity == b.start_velocity
    && a.end_velocity == b.end_velocity && a.note_duration == b.note_duration
    && a.next_note_delay == b.next_note_delay && a.tempo == b.tempo
    && a.instrument == b.instrument

/-- `Note.__hash__`: iterated `67 * h + field` over the seven fields,
starting from 5 (Python ints are unbounded, so this is exact). -/
def Note.hashv (n : Note) : Int :=
  let h : Int := 5
  let h := 67 * h + n.key
  let h := 67 * h + n.start_velocity
  let h := 67 * h + n.end_velocity
  let h := 67 * h + n.note_duration
  let h := 67 * h + n.next_note_delay
  let h := 67 * h + n.tempo
  let h := 67 * h + n.instrument
  h

/-- `Note.rounded`: floor each bucketed field to its modulus via
`value - (value % modulus)`; `key`, `instrument`, `timestamp` pass through. -/
def Note.rounded (n : Note) (velocity_rounding duration_rounding tempo_rounding : Int) : Note :=
  { key := n.key
    start_velocity := n.start_velocity - n.start_velocity % velocity_rounding
    end_velocity := n.end_velocity - n.end_velocity % velocity_rounding
    note_duration := n.note_duration - n.note_duration % duration_rounding
    next_note_delay := n.next_note_delay - n.next_note_delay % duration_rounding
    tempo := n.tempo - n.tempo % tempo_rounding
    instrument := n.instrument
    timestamp := n.timestamp }

/-- The tuple of the seven identity-relevant fields of a `Note`. -/
def Note.core (n : Note) : Int × Int × Int × Int × Int × Int × Int :=
  (n.key, n.start_velocity, n.end_velocity, n.note_duration,
   n.next_note_delay, n.tempo, n.instrument)

theorem Note.eq_iff (a b : Note) : Note.eq a b = true ↔ a.core = b.core := by
  simp [Note.eq, Note.core, Prod.ext_iff, and_assoc]

theorem one_mod_pos_sub_emod (v m : Int) : (v - v % m) % m = 0 := by
  have h := Int.ediv_add_emod v m
  have hrepr : v - v % m = m * (v / m) := by omega
  rw [hrepr]
  exact Int.mul_emod_right m (v / m)

/-- Claim C8: quantization is idempotent and pure: for every `Note` and
positive moduli, `rounded` computes `value - value % modulus` on each
bucketed field, leaves `key`, `instrument` and `timestamp` unchanged, and
applying it twice equals applying it once. -/
theorem c8_rounded_idempotent (n : Note) (vr dr tr : Int)
    (hvr : 0 < vr) (hdr : 0 < dr) (htr : 0 < tr) :
    (n.rounded vr dr tr).start_velocity = n.start_velocity - n.start_velocity % vr
    ∧ (n.rounded vr dr tr).end_velocity = n.end_velocity - n.end_velocity % vr
    ∧ (n.rounded vr dr tr).note_duration = n.note_duration - n.note_duration % dr
    ∧ (n.rounded vr dr tr).next_note_delay = n.next_note_delay - n.next_note_delay % dr
    ∧ (n.rounded vr dr tr).tempo = n.tempo - n.tempo % tr
    ∧ (n.rounded vr dr tr).key = n.key
    ∧ (n.rounded vr dr tr).instrument = n.instrument
    ∧ (n.rounded vr dr tr).timestamp = n.timestamp
    ∧ (n.rounded vr dr tr).rounded vr dr tr = n.rounded vr dr tr := by
  refine ⟨rfl, rfl, rfl, rfl, rfl, rfl, rfl, rfl, ?_⟩
  simp only [Note.rounded, one_mod_pos_sub_emod, sub_zero]

/-- Witness for C8 at a concrete note and the source's default moduli. -/
theorem c8_rounded_idempotent_witness :
    ((Note.mk 60 77 13 2500 950 500001 3 42).rounded 40 2000 1000000000).rounded
        40 2000 1000000000
      = (Note.mk 60 77 13 2500 950 500001 3 42).rounded 40 2000 1000000000 :=
  (c8_rounded_idempotent (Note.mk 60 77 13 2500 950 500001 3 42) 40 2000 1000000000
    (by decide) (by decide) (by decide)).2.2.2.2.2.2.2.2

/-- Claim C9: `Note` equality is exactly agreement on the seven fields
(`timestamp` excluded), and two equal notes hash equal (the hash reads
only the seven fields); notes differing in any of the seven are unequal. -/
theorem c9_eq_hash_seven_fields (a b : Note) :
    (Note.eq a b = true ↔ a.core = b.core)
    ∧ (a.core = b.core → Note.hashv a = Note.hashv b) := by
  refine ⟨Note.eq_iff a b, fun h => ?_⟩
  simp only [Note.core, Prod.ext_iff] at h
  simp [Note.hashv, h.1, h.2.1, h.2.2.1, h.2.2.2.1, h.2.2.2.2.1, h.2.2.2.2.2.1,
    h.2.2.2.2.2.2]

/-- Witness for C9: two concrete notes differing only in `timestamp` are
equal and hash equal. -/
theorem c9_eq_hash_seven_fields_witness :
    Note.eq (Note.mk 60 77 13 2500 950 500001 3 42) (Note.mk 60 77 13 2500 950 500001 3 7)
        = true
    ∧ Note.hashv (Note.mk 60 77 13 2500 950 500001 3 42)
        = Note.hashv (Note.mk 60 77 13 2500 950 500001 3 7) :=
  ⟨(c9_eq_hash_seven_fields (Note.mk 60 77 13 2500 950 500001 3 42)
      (Note.mk 60 77 13 2500 950 500001 3 7)).1.mpr (by decide),
   (c9_eq_hash_seven_fields (Note.mk 60 77 13 2500 950 500001 3 42)
      (Note.mk 60 77 13 2500 950 500001 3 7)).2 (by decide)⟩

/-- A continuation: a concrete `Note` or the terminal marker `None`. -/
abbrev NCont := Option Note

/-- A dictionary key: the tuple handed to `option_map` by the source.
Training always stores tuples of notes, but `generate` may probe with the
terminal marker inside (the seed can be `None`), so elements are `NCont`. -/
abbrev Key := List NCont

/-- A continuation list with its parallel count list, fused into pairs. -/
abbrev Entry := List (NCont × Rat)

/-- The fused `option_map` / `count_map`: an insertion-ordered association
list, as a Python dict is. -/
abbrev CMap := List (Key × Entry)

/-- Python `==` on optional notes: `None == None`, notes via `Note.__eq__`,
and a note never equals `None`. -/
def contEq : NCont → NCont → Bool
  | none, none => true
  | some a, some b => Note.eq a b
  | _, _ => false

/-- Python tuple equality on keys: same length and pairwise `contEq`. -/
def keyEq : Key → Key → Bool
  | [], [] => true
  | a :: as, b :: bs => contEq a b && keyEq as bs
  | _, _ => false

theorem contEq_iff (a b : NCont) :
    contEq a b = true ↔ a.map Note.core = b.map Note.core := by
  cases a <;> cases b <;> simp [contEq, Note.eq_iff]

theorem keyEq_iff (k1 k2 : Key) :
    keyEq k1 k2 = true ↔ k1.map (Option.map Note.core) = k2.map (Option.map Note.core) := by
  induction k1 generalizing k2 with
  | nil => cases k2 <;> simp [keyEq]
  | cons a as ih =>
    cases k2 with
    | nil => simp [keyEq]
    | cons b bs => simp [keyEq, contEq_iff, ih]

theorem contEq_congr {a b : NCont} (h : contEq a b = true) (x : NCont) :
    contEq a x = contEq b x := by
  have h' := (contEq_iff a b).mp h
  have : (contEq a x = true) ↔ (contEq b x = true) := by
    rw [contEq_iff, contEq_iff, h']
  cases hax : contEq a x <;> cases hbx : contEq b x <;> simp [hax, hbx] at this ⊢

theorem keyEq_congr {a b : Key} (h : keyEq a b = true) (x : Key) :
    keyEq a x = keyEq b x := by
  have h' := (keyEq_iff a b).mp h
  have : (keyEq a x = true) ↔ (keyEq b x = true) := by
    rw [keyEq_iff, keyEq_iff, h']
  cases hax : keyEq a x <;> cases hbx : keyEq b x <;> simp [hax, hbx] at this ⊢

/-- The model hyperparameters carried by the `MarkovMusic` object.  The
source allows a non-positive `order`; every non-positive Python value
behaves identically to `0` in both `add_to_map` and `generate` (all the
derived ranges are empty), so `order : Nat` with `0` covers them. -/
structure Config where
  order : Nat
  velocity_rounding : Int
  duration_rounding : Int
  tempo_rounding : Int

/-- The constructor defaults of `MarkovMusic`: order 3, moduli 40 / 2000 /
1000000000. -/
def mmCfg : Config :=
  { order := 3, velocity_rounding := 40, duration_rounding := 2000
    tempo_rounding := 1000000000 }

/-- `MarkovMusic.round_list`: round every element, passing `None` through. -/
def roundList (cfg : Config) (l : List NCont) : List NCont :=
  l.map (fun c =>
    match c with
    | some n => some (n.rounded cfg.velocity_rounding cfg.duration_rounding cfg.tempo_rounding)
    | none => none)

/-- The in-place update of the parallel `option_list` / `count_list` for
one observation: `list.index` finds the first continuation equal (under
Python `==`) to the new one and adds the weight to its count, otherwise
the pair is appended with the weight as its count. -/
def addPair : Entry → NCont → Rat → Entry
  | [], c, w => [(c, w)]
  | (c0, w0) :: rest, c, w =>
    if contEq c0 c then (c0, w0 + w) :: rest
    else (c0, w0) :: addPair rest c w

/-- Python dict update `option_map[n]` / `count_map[n]` for one observed
(context, continuation) pair: find the key by tuple equality, update its
entry in place, or append a fresh key at the end (dicts are
insertion-ordered). -/
def mapAdd : CMap → Key → NCont → Rat → CMap
  | [], k, c, w => [(k, addPair [] c w)]
  | (k0, e0) :: rest, k, c, w =>
    if keyEq k0 k then (k0, addPair e0 c w) :: rest
    else (k0, e0) :: mapAdd rest k c w

/-- Python dict membership/read `use in self.option_map`. -/
def mapFind : CMap → Key → Option Entry
  | [], _ => none
  | (k0, e0) :: rest, k => if keyEq k0 k then some e0 else mapFind rest k

/-- The quantized window `tuple(self.round_list(notes[j : i + 1]))`. -/
def windowKey (cfg : Config) (notes : List Note) (j i : Nat) : Key :=
  roundList cfg (((notes.drop j).take (i + 1 - j)).map some)

/-- `MarkovMusic.add_to_map`: for each position `i` and each `t` in
`range(min(order, i+1))` (the source iterates `j = i - t` downwards),
insert the quantized window `notes[j : i+1]` with continuation
`notes[i+1]` when it exists and the terminal marker at the end. -/
def add_to_map (cfg : Config) (m : CMap) (notes : List Note) (w : Rat) : CMap :=
  (List.range notes.length).foldl (fun m1 i =>
    (List.range (min cfg.order (i + 1))).foldl (fun m2 t =>
      mapAdd m2 (windowKey cfg notes (i - t) i) (notes.get? (i + 1)) w) m1) m

/-- The training fold of `MarkovMusic.run`: ingest each source sequence
with its weight into the shared maps, starting from empty. -/
def trainAll (cfg : Config) (sources : List (List Note × Rat)) : CMap :=
  sources.foldl (fun m s => add_to_map cfg m s.1 s.2) []

/-- Accumulated count stored for continuation `c` (up to Python `==`)
inside one entry. -/
def entryWeight (e : Entry) (c : NCont) : Rat :=
  (e.map (fun q => if contEq q.1 c then q.2 else 0)).sum

/-- Accumulated count the trained index stores for the pair `(k, c)`,
up to Python `==` on keys and continuations. -/
def pairWeight (m : CMap) (k : Key) (c : NCont) : Rat :=
  (m.map (fun p => if keyEq p.1 k then entryWeight p.2 c else 0)).sum

/-- Number of observations of the pair `(k, c)` contributed by one
training sequence, written as the specification states it: positions `i`,
context lengths `L` from 1 to `min(order, i+1)`, the window being the `L`
notes ending at `i`, quantized, and the continuation being the note at
`i+1` or the terminal marker. -/
def occ (cfg : Config) (notes : List Note) (k : Key) (c : NCont) : Nat :=
  ((List.range notes.length).map (fun i =>
    (((List.range (min cfg.order (i + 1))).map (fun t => t + 1)).filter (fun L =>
      keyEq (roundList cfg (((notes.drop (i + 1 - L)).take L).map some)) k
        && contEq (notes.get? (i + 1)) c)).length)).sum

theorem entryWeight_nil (x : NCont) : entryWeight [] x = 0 := rfl

theorem entryWeight_cons (a : NCont) (b : Rat) (l : Entry) (x : NCont) :
    entryWeight ((a, b) :: l) x = (if contEq a x then b else 0) + entryWeight l x := by
  simp [entryWeight]

theorem pairWeight_nil (k : Key) (c : NCont) : pairWeight [] k c = 0 := rfl

theorem pairWeight_cons (k0 : Key) (e0 : Entry) (m : CMap) (k : Key) (c : NCont) :
    pairWeight ((k0, e0) :: m) k c
      = (if keyEq k0 k then entryWeight e0 c else 0) + pairWeight m k c := by
  simp [pairWeight]

theorem entryWeight_addPair (e : Entry) (c : NCont) (w : Rat) (x : NCont) :
    entryWeight (addPair e c w) x = entryWeight e x + (if contEq c x then w else 0) := by
  induction e with
  | nil => simp [addPair, entryWeight_cons, entryWeight_nil]
  | cons q rest ih =>
    obtain ⟨c0, w0⟩ := q
    by_cases h : contEq c0 c = true
    · have hcx : contEq c0 x = contEq c x := contEq_congr h x
      simp only [addPair, h, if_true, entryWeight_cons, hcx]
      by_cases hx : contEq c x = true <;> simp [hx] <;> ring
    · simp [addPair, h, entryWeight_cons, ih]
      ring

theorem pairWeight_mapAdd (m : CMap) (k : Key) (c : NCont) (w : Rat) (k' : Key) (c' : NCont) :
    pairWeight (mapAdd m k c w) k' c'
      = pairWeight m k' c' + (if keyEq k k' && contEq c c' then w else 0) := by
  induction m with
  | nil =>
    simp only [mapAdd, addPair, pairWeight_cons, pairWeight_nil, entryWeight_cons,
      entryWeight_nil]
    by_cases hk : keyEq k k' = true <;> by_cases hc : contEq c c' = true <;>
      simp [hk, hc]
  | cons p rest ih =>
    obtain ⟨k0, e0⟩ := p
    by_cases hk : keyEq k0 k = true
    · have hkk : keyEq k0 k' = keyEq k k' := keyEq_congr hk k'
      simp only [mapAdd, hk, if_true, pairWeight_cons, entryWeight_addPair, hkk]
      by_cases h1 : keyEq k k' = true <;> by_cases h2 : contEq c c' = true <;>
        simp [h1, h2] <;> ring
    · simp [mapAdd, hk, pairWeight_cons, ih]
      ring

theorem pairWeight_foldl_mapAdd (key : Nat → Key) (c : NCont) (w : Rat)
    (ts : List Nat) (m : CMap) (k' : Key) (c' : NCont) :
    pairWeight (ts.foldl (fun m2 t => mapAdd m2 (key t) c w) m) k' c'
      = pairWeight m k' c'
        + w * ((ts.filter (fun t => keyEq (key t) k' && contEq c c')).length : Nat) := by
  induction ts generalizing m with
  | nil => simp
  | cons t ts ih =>
    simp only [List.foldl_cons, ih, pairWeight_mapAdd, List.filter_cons]
    by_cases h : (keyEq (key t) k' && contEq c c') = true <;>
      simp [h] <;> push_cast <;> ring

theorem findSome?_congr {α β : Type} (f g : α → Option β) (l : List α)
    (h : ∀ a ∈ l, f a = g a) : l.findSome? f = l.findSome? g := by
  induction l with
  | nil => rfl
  | cons a l ih =>
    have ha : f a = g a := h a (List.mem_cons_self a l)
    cases hfa : f a with
    | none =>
      have hga : g a = none := ha ▸ hfa
      simp only [List.findSome?, hfa, hga]
      exact ih (fun x hx => h x (List.mem_cons_of_mem a hx))
    | some b =>
      have hga : g a = some b := ha ▸ hfa
      simp only [List.findSome?, hfa, hga]

theorem findSome?_map_fn {α β γ : Type} (h : α → β) (f : β → Option γ) (l : List α) :
    (l.map h).findSome? f = l.findSome? (fun a => f (h a)) := by
  induction l with
  | nil => rfl
  | cons a l ih => cases hfa : f (h a) <;> simp [List.findSome?, hfa, ih]

theorem exists_of_findSome?_eq {α β : Type} (f : α → Option β) (l : List α) (b : β)
    (h : l.findSome? f = some b) : ∃ a ∈ l, f a = some b := by
  induction l with
  | nil => simp [List.findSome?] at h
  | cons a l ih =>
    cases hfa : f a with
    | none =>
      have h' : l.findSome? f = some b := by
        simpa [List.findSome?, hfa] using h
      obtain ⟨x, hx, hfx⟩ := ih h'
      exact ⟨x, List.mem_cons_of_mem a hx, hfx⟩
    | some v =>
      have h' : v = b := by simpa [List.findSome?, hfa] using h
      exact ⟨a, List.mem_cons_self a l, by rw [hfa, h']⟩

theorem occ_inner_eq (cfg : Config) (notes : List Note) (i : Nat) (k : Key) (c : NCont) :
    (((List.range (min cfg.order (i + 1))).map (fun t => t + 1)).filter (fun L =>
      keyEq (roundList cfg (((notes.drop (i + 1 - L)).take L).map some)) k
        && contEq (notes.get? (i + 1)) c)).length
    = ((List.range (min cfg.order (i + 1))).filter (fun t =>
        keyEq (windowKey cfg notes (i - t) i) k && contEq (notes.get? (i + 1)) c)).length := by
  rw [List.filter_map, List.length_map]
  congr 1
  apply List.filter_congr
  intro t ht
  have htlt : t < min cfg.order (i + 1) := List.mem_range.mp ht
  have h1 : i + 1 - (t + 1) = i - t := by omega
  have h2 : i + 1 - (i - t) = t + 1 := by omega
  simp only [Function.comp, windowKey, h1, h2]

theorem pairWeight_add_to_map (cfg : Config) (m : CMap) (notes : List Note) (w : Rat)
    (k : Key) (c : NCont) :
    pairWeight (add_to_map cfg m notes w) k c
      = pairWeight m k c + w * (occ cfg notes k c : Nat) := by
  suffices h : ∀ (is : List Nat) (m : CMap),
      pairWeight (is.foldl (fun m1 i =>
        (List.range (min cfg.order (i + 1))).foldl (fun m2 t =>
          mapAdd m2 (windowKey cfg notes (i - t) i) (notes.get? (i + 1)) w) m1) m) k c
        = pairWeight m k c + w * (((is.map (fun i =>
            ((List.range (min cfg.order (i + 1))).filter (fun t =>
              keyEq (windowKey cfg notes (i - t) i) k
                && contEq (notes.get? (i + 1)) c)).length)).sum : Nat)) by
    rw [add_to_map, h]
    congr 3
    unfold occ
    congr 1
    exact List.map_congr_left (fun i _ => (occ_inner_eq cfg notes i k c).symm)
  intro is
  induction is with
  | nil => intro m1; simp
  | cons i is ih =>
    intro m1
    rw [List.foldl_cons,
      ih ((List.range (min cfg.order (i + 1))).foldl (fun m2 t =>
        mapAdd m2 (windowKey cfg notes (i - t) i) (notes.get? (i + 1)) w) m1),
      pairWeight_foldl_mapAdd (fun t => windowKey cfg notes (i - t) i)
        (notes.get? (i + 1)) w _ m1 k c]
    simp only [List.map_cons, List.sum_cons, Nat.cast_add]
    ring

/-- Claim C3: training a sequence with weight `w` adds, for every position
`i` and every context length `L` from 1 to `min(order, i+1)`, weight `w`
onto the entry keyed by the quantized window of the `L` notes ending at
`i` with continuation the unquantized note at `i+1` (terminal marker at
the last position); repeated pairs accumulate on one entry, and the empty
sequence changes nothing.  The stored count of every (context,
continuation) pair thus grows by `w` times its number of occurrences. -/
theorem c3_add_to_map_counts (cfg : Config) (m : CMap) (w : Rat) :
    (∀ (notes : List Note) (k : Key) (c : NCont),
      pairWeight (add_to_map cfg m notes w) k c
        = pairWeight m k c + w * (occ cfg notes k c : Nat))
    ∧ add_to_map cfg m [] w = m :=
  ⟨fun notes k c => pairWeight_add_to_map cfg m notes w k c, rfl⟩

/-- Claim C7: training two sources in either order yields the same final
mapping from (context, continuation) pairs to accumulated counts. -/
theorem c7_training_order_independent (cfg : Config) (m : CMap) (A B : List Note)
    (wA wB : Rat) (hA : 0 < wA) (hB : 0 < wB) (k : Key) (c : NCont) :
    pairWeight (add_to_map cfg (add_to_map cfg m A wA) B wB) k c
      = pairWeight (add_to_map cfg (add_to_map cfg m B wB) A wA) k c := by
  simp only [pairWeight_add_to_map]
  ring

/-- Witness for C7 at two concrete one-note sources and weights 1 and 2. -/
theorem c7_training_order_independent_witness :
    pairWeight (add_to_map mmCfg (add_to_map mmCfg [] [Note.mk 60 1 2 3 4 5 6 7] 1)
        [Note.mk 62 1 2 3 4 5 6 7] 2) [] none
      = pairWeight (add_to_map mmCfg (add_to_map mmCfg [] [Note.mk 62 1 2 3 4 5 6 7] 2)
        [Note.mk 60 1 2 3 4 5 6 7] 1) [] none :=
  c7_training_order_independent mmCfg [] [Note.mk 60 1 2 3 4 5 6 7]
    [Note.mk 62 1 2 3 4 5 6 7] 1 2 (by decide) (by decide) [] none

/-- The per-entry part of the ContextIndex invariant: non-empty, strictly
positive counts, and no duplicated continuation (up to Python equality). -/
def goodEntry (e : Entry) : Prop :=
  e ≠ [] ∧ (∀ q ∈ e, 0 < q.2) ∧ e.Pairwise (fun a b => contEq a.1 b.1 = false)

/-- The ContextIndex invariant: no duplicated key, and every entry good. -/
def goodMap (m : CMap) : Prop :=
  m.Pairwise (fun a b => keyEq a.1 b.1 = false) ∧ ∀ p ∈ m, goodEntry p.2

theorem mem_addPair_fst (e : Entry) (c : NCont) (w : Rat) :
    ∀ q ∈ addPair e c w, q.1 ∈ e.map Prod.fst ∨ q.1 = c := by
  induction e with
  | nil => intro q hq; simp [addPair] at hq; simp [hq]
  | cons p rest ih =>
    obtain ⟨c0, w0⟩ := p
    intro q hq
    by_cases h : contEq c0 c = true
    · simp only [addPair, h, if_true, List.mem_cons] at hq
      rcases hq with hq | hq
      · simp [hq]
      · exact Or.inl (List.mem_map_of_mem Prod.fst (List.mem_cons_of_mem _ hq))
    · simp only [addPair, h, if_false, Bool.false_eq_true, List.mem_cons] at hq
      rcases hq with hq | hq
      · simp [hq]
      · rcases ih q hq with h1 | h1
        · exact Or.inl (by simp [List.mem_map] at h1 ⊢; tauto)
        · exact Or.inr h1

theorem addPair_ne_nil (e : Entry) (c : NCont) (w : Rat) : addPair e c w ≠ [] := by
  cases e with
  | nil => simp [addPair]
  | cons p rest =>
    obtain ⟨c0, w0⟩ := p
    by_cases h : contEq c0 c = true <;> simp [addPair, h]

theorem goodEntry_addPair {e : Entry} {w : Rat} (c : NCont) (hw : 0 < w)
    (he : goodEntry e) : goodEntry (addPair e c w) := by
  obtain ⟨-, hpos, hpw⟩ := he
  refine ⟨addPair_ne_nil e c w, ?_, ?_⟩
  · clear hpw
    induction e with
    | nil =>
      intro q hq; simp [addPair] at hq; simp [hq, hw]
    | cons p rest ih =>
      obtain ⟨c0, w0⟩ := p
      intro q hq
      have hc0 : 0 < w0 := hpos (c0, w0) (List.mem_cons_self _ _)
      by_cases h : contEq c0 c = true
      · simp only [addPair, h, if_true, List.mem_cons] at hq
        rcases hq with hq | hq
        · simp [hq]; positivity
        · exact hpos q (List.mem_cons_of_mem _ hq)
      · simp only [addPair, h, if_false, Bool.false_eq_true, List.mem_cons] at hq
        rcases hq with hq | hq
        · simp [hq, hc0]
        · exact ih (fun r hr => hpos r (List.mem_cons_of_mem _ hr)) q hq
  · clear hpos
    induction e with
    | nil => simp [addPair]
    | cons p rest ih =>
      obtain ⟨c0, w0⟩ := p
      rw [List.pairwise_cons] at hpw
      obtain ⟨hhead, htail⟩ := hpw
      by_cases h : contEq c0 c = true
      · simp only [addPair, h, if_true]
        exact List.Pairwise.cons hhead htail
      · simp only [addPair, h, if_false, Bool.false_eq_true]
        refine List.Pairwise.cons ?_ (ih htail)
        intro b hb
        rcases mem_addPair_fst rest c w b hb with h1 | h1
        · obtain ⟨r, hr, hr1⟩ := List.mem_map.mp h1
          exact hr1 ▸ hhead r hr
        · rw [h1]
          exact Bool.not_eq_true _ ▸ (by simpa using h)

theorem mem_mapAdd_fst (m : CMap) (k : Key) (c : NCont) (w : Rat) :
    ∀ p ∈ mapAdd m k c w, p.1 ∈ m.map Prod.fst ∨ p.1 = k := by
  induction m with
  | nil => intro p hp; simp [mapAdd, addPair] at hp; simp [hp]
  | cons q rest ih =>
    obtain ⟨k0, e0⟩ := q
    intro p hp
    by_cases h : keyEq k0 k = true
    · simp only [mapAdd, h, if_true, List.mem_cons] at hp
      rcases hp with hp | hp
      · simp [hp]
      · exact Or.inl (List.mem_map_of_mem Prod.fst (List.mem_cons_of_mem _ hp))
    · simp only [mapAdd, h, if_false, Bool.false_eq_true, List.mem_cons] at hp
      rcases hp with hp | hp
      · simp [hp]
      · rcases ih p hp with h1 | h1
        · exact Or.inl (by simp [List.mem_map] at h1 ⊢; tauto)
        · exact Or.inr h1

theorem goodMap_mapAdd {m : CMap} {w : Rat} (k : Key) (c : NCont) (hw : 0 < w)
    (h : goodMap m) : goodMap (mapAdd m k c w) := by
  obtain ⟨hpw, hent⟩ := h
  induction m with
  | nil =>
    refine ⟨List.pairwise_singleton _ _, ?_⟩
    intro p hp
    simp [mapAdd, addPair] at hp
    subst hp
    exact ⟨by simp, fun q hq => by simp at hq; simp [hq, hw], by simp⟩
  | cons q rest ih =>
    obtain ⟨k0, e0⟩ := q
    rw [List.pairwise_cons] at hpw
    obtain ⟨hhead, htail⟩ := hpw
    by_cases hk : keyEq k0 k = true
    · simp only [mapAdd, hk, if_true]
      refine ⟨List.Pairwise.cons hhead htail, ?_⟩
      intro p hp
      rcases List.mem_cons.mp hp with hp | hp
      · rw [hp]
        exact goodEntry_addPair c hw (hent (k0, e0) (List.mem_cons_self _ _))
      · exact hent p (List.mem_cons_of_mem _ hp)
    · simp only [mapAdd, hk, if_false, Bool.false_eq_true]
      have ihr := ih htail (fun p hp => hent p (List.mem_cons_of_mem _ hp))
      refine ⟨?_, ?_⟩
      · refine List.Pairwise.cons ?_ ihr.1
        intro b hb
        rcases mem_mapAdd_fst rest k c w b hb with h1 | h1
        · obtain ⟨r, hr, hr1⟩ := List.mem_map.mp h1
          exact hr1 ▸ hhead r hr
        · rw [h1]
          exact Bool.not_eq_true _ ▸ (by simpa using hk)
      · intro p hp
        rcases List.mem_cons.mp hp with hp | hp
        · rw [hp]
          exact hent (k0, e0) (List.mem_cons_self _ _)
        · exact ihr.2 p hp

theorem goodMap_foldl_mapAdd {w : Rat} (key : Nat → Key) (c : NCont) (hw : 0 < w) :
    ∀ (ts : List Nat) (m : CMap), goodMap m →
      goodMap (ts.foldl (fun m2 t => mapAdd m2 (key t) c w) m) := by
  intro ts
  induction ts with
  | nil => intro m h; exact h
  | cons t ts ih =>
    intro m h
    rw [List.foldl_cons]
    exact ih _ (goodMap_mapAdd (key t) c hw h)

theorem goodMap_add_to_map {m : CMap} {w : Rat} (cfg : Config) (notes : List Note)
    (hw : 0 < w) (h : goodMap m) : goodMap (add_to_map cfg m notes w) := by
  rw [add_to_map]
  induction (List.range notes.length) generalizing m with
  | nil => exact h
  | cons i is ih =>
    rw [List.foldl_cons]
    exact ih (goodMap_foldl_mapAdd (fun t => windowKey cfg notes (i - t) i)
      (notes.get? (i + 1)) hw _ m h)

theorem goodMap_foldl_train (cfg : Config) :
    ∀ (sources : List (List Note × Rat)) (m : CMap), (∀ s ∈ sources, 0 < s.2) →
      goodMap m → goodMap (sources.foldl (fun m1 s => add_to_map cfg m1 s.1 s.2) m) := by
  intro sources
  induction sources with
  | nil => intro m _ h; exact h
  | cons s ss ih =>
    intro m hw h
    rw [List.foldl_cons]
    exact ih _ (fun r hr => hw r (List.mem_cons_of_mem _ hr))
      (goodMap_add_to_map cfg s.1 (hw s (List.mem_cons_self _ _)) h)

theorem goodMap_trainAll (cfg : Config) (sources : List (List Note × Rat))
    (hw : ∀ s ∈ sources, 0 < s.2) : goodMap (trainAll cfg sources) := by
  rw [trainAll]
  exact goodMap_foldl_train cfg sources [] hw ⟨List.Pairwise.nil, by simp⟩

theorem goodEntry_sum_pos {e : Entry} (he : goodEntry e) : 0 < (e.map Prod.snd).sum := by
  obtain ⟨hne, hpos, -⟩ := he
  cases e with
  | nil => exact absurd rfl hne
  | cons q rest =>
    have h1 : 0 < q.2 := hpos q (List.mem_cons_self _ _)
    have h2 : 0 ≤ (rest.map Prod.snd).sum := by
      apply List.sum_nonneg
      intro x hx
      obtain ⟨r, hr, hrx⟩ := List.mem_map.mp hx
      exact le_of_lt (hrx ▸ hpos r (List.mem_cons_of_mem _ hr))
    simpa using add_pos_of_pos_of_nonneg h1 h2

/-- Claim C6: after any sequence of training calls with strictly positive
weights, every context key present has a non-empty continuation list, all
stored counts are strictly positive (so their sum is), and no key and no
(context, continuation) pair is duplicated. -/
theorem c6_index_invariant (cfg : Config) (sources : List (List Note × Rat))
    (hw : ∀ s ∈ sources, 0 < s.2) :
    (trainAll cfg sources).Pairwise (fun a b => keyEq a.1 b.1 = false)
    ∧ ∀ p ∈ trainAll cfg sources,
        p.2 ≠ [] ∧ (∀ q ∈ p.2, 0 < q.2) ∧ 0 < (p.2.map Prod.snd).sum
          ∧ p.2.Pairwise (fun a b => contEq a.1 b.1 = false) := by
  have h := goodMap_trainAll cfg sources hw
  refine ⟨h.1, fun p hp => ?_⟩
  have he := h.2 p hp
  exact ⟨he.1, he.2.1, goodEntry_sum_pos he, he.2.2⟩

/-- Witness for C6 at a concrete three-note training source of weight 1. -/
theorem c6_index_invariant_witness :
    (trainAll mmCfg [([Note.mk 60 0 0 0 100 0 0 0, Note.mk 62 0 0 0 0 0 0 0], 1)]).Pairwise
        (fun a b => keyEq a.1 b.1 = false)
    ∧ ∀ p ∈ trainAll mmCfg [([Note.mk 60 0 0 0 100 0 0 0, Note.mk 62 0 0 0 0 0 0 0], 1)],
        p.2 ≠ [] ∧ (∀ q ∈ p.2, 0 < q.2) ∧ 0 < (p.2.map Prod.snd).sum
          ∧ p.2.Pairwise (fun a b => contEq a.1 b.1 = false) :=
  c6_index_invariant mmCfg [([Note.mk 60 0 0 0 100 0 0 0, Note.mk 62 0 0 0 0 0 0 0], 1)]
    (by decide)

/-- `MarkovMusic.pick`, i.e. `random.choices(options, weights=counts, k=1)[0]`:
a cumulative-weight draw.  CPython draws `r = random() * total` and takes
the first element whose cumulative weight strictly exceeds `r`, clamping
the index to the last element; `r` is the oracle here.  The empty-list
case returns the terminal marker as a modelling artifact (CPython raises,
and the index invariant keeps entries non-empty). -/
def pick : Entry → Rat → NCont
  | [], _ => none
  | [(c, _)], _ => c
  | (c, w) :: q :: e, r => if r < w then c else pick (q :: e) (r - w)

/-- The backoff search of the generation loop: `lowest = max(0, len(current)
- order)` (natural subtraction), then for `i` in `range(len(current) -
lowest)` quantize the suffix `current[lowest + i :]` and look it up,
returning the first hit. -/
def findMatch (cfg : Config) (m : CMap) (current : List NCont) : Option Entry :=
  (List.range (current.length - (current.length - cfg.order))).findSome? (fun i =>
    mapFind m (roundList cfg (current.drop (current.length - cfg.order + i))))

/-- The `while True` loop of `MarkovMusic.generate`, with explicit fuel and
the random stream `rs` feeding `pick`: look up the longest matching
quantized suffix; stop if nothing matches or the terminal marker is
sampled; otherwise append the sampled note, add its `next_note_delay` to
`accumulated_ticks`, and when the total reaches `ticks_per_measure *
(measures + 1)` bump the measure counter once and stop if it reached the
configured maximum. -/
def genLoop (cfg : Config) (m : CMap) (tpm : Rat) (maxM : Option Int) :
    Nat → List Rat → List NCont → Int → Int → List NCont
  | 0, _, current, _, _ => current
  | fuel + 1, rs, current, acc, measures =>
    match findMatch cfg m current with
    | none => current
    | some e =>
      match pick e (rs.headD 0) with
      | none => current
      | some note =>
        let acc2 := acc + note.next_note_delay
        if tpm * ((measures : Rat) + 1) ≤ (acc2 : Rat) then
          match maxM with
          | some mm =>
            if mm ≤ measures + 1 then current ++ [some note]
            else genLoop cfg m tpm maxM fuel rs.tail (current ++ [some note]) acc2
              (measures + 1)
          | none => genLoop cfg m tpm maxM fuel rs.tail (current ++ [some note]) acc2
              (measures + 1)
        else genLoop cfg m tpm maxM fuel rs.tail (current ++ [some note]) acc2 measures

/-- `MarkovMusic.generate`: empty index gives an empty output; otherwise
seed with `random.choice(random.choice(list(option_map.values())))`
(uniform indices supplied by the oracles `r0`, `r1`), compute
`ticks_per_measure = ticks_per_beat * beats_per_measure * (4 / beat_value)`
and run the loop with `accumulated_ticks = 0` and `measures = 0`. -/
def generate (cfg : Config) (m : CMap) (tpb num den : Int) (maxM : Option Int)
    (r0 r1 : Nat) (rs : List Rat) (fuel : Nat) : List NCont :=
  if m.isEmpty then []
  else
    let vals := m.map (fun p => p.2)
    let rand := vals.getD (r0 % vals.length) []
    let seed := (rand.getD (r1 % rand.length) (none, 0)).1
    let tpm : Rat := (tpb : Rat) * (num : Rat) * (4 / (den : Rat))
    genLoop cfg m tpm maxM fuel rs [seed] 0 0

/-- Total `next_note_delay` of a list of notes. -/
def delaySum (l : List Note) : Int := (l.map (fun n => n.next_note_delay)).sum

/-- Modelled from the spec (for the amended C4): the generation loop with
`accumulatedTicks` literally recomputed as the sum of `next_note_delay`
over the notes the loop has appended so far (the seed excluded), the
measure counter bumped by one each time that sum reaches the next multiple
of `ticksPerMeasure`, and generation stopping immediately after appending
the note on which the counter reaches the configured maximum. -/
def genLoopSpec (cfg : Config) (m : CMap) (tpm : Rat) (maxM : Option Int) :
    Nat → List Rat → List NCont → List Note → Int → List NCont
  | 0, _, current, _, _ => current
  | fuel + 1, rs, current, appended, measures =>
    match findMatch cfg m current with
    | none => current
    | some e =>
      match pick e (rs.headD 0) with
      | none => current
      | some note =>
        let appended2 := appended ++ [note]
        if tpm * ((measures : Rat) + 1) ≤ ((delaySum appended2 : Int) : Rat) then
          match maxM with
          | some mm =>
            if mm ≤ measures + 1 then current ++ [some note]
            else genLoopSpec cfg m tpm maxM fuel rs.tail (current ++ [some note])
              appended2 (measures + 1)
          | none => genLoopSpec cfg m tpm maxM fuel rs.tail (current ++ [some note])
              appended2 (measures + 1)
        else genLoopSpec cfg m tpm maxM fuel rs.tail (current ++ [some note])
          appended2 measures

/-- The spec-level `generate` built on `genLoopSpec`, starting from no
loop-appended notes. -/
def generateSpec (cfg : Config) (m : CMap) (tpb num den : Int) (maxM : Option Int)
    (r0 r1 : Nat) (rs : List Rat) (fuel : Nat) : List NCont :=
  if m.isEmpty then []
  else
    let vals := m.map (fun p => p.2)
    let rand := vals.getD (r0 % vals.length) []
    let seed := (rand.getD (r1 % rand.length) (none, 0)).1
    let tpm : Rat := (tpb : Rat) * (num : Rat) * (4 / (den : Rat))
    genLoopSpec cfg m tpm maxM fuel rs [seed] [] 0

/-- `MarkovMusic.run`, restricted to the in-scope core: default the
weights to 1.0 when absent, report a weight-count mismatch and stop
(`none`) before any training, otherwise train every source with its
weight into fresh maps and generate.  Reading the input files and writing
the output file are the out-of-scope collaborators. -/
def run (cfg : Config) (sources : List (List Note)) (weights : Option (List Rat))
    (tpb num den : Int) (maxM : Option Int) (r0 r1 : Nat) (rs : List Rat)
    (fuel : Nat) : Option (CMap × List NCont) :=
  let ws := match weights with
    | none => sources.map (fun _ => (1 : Rat))
    | some l => l
  if ws.length = sources.length then
    let m := trainAll cfg (sources.zip ws)
    some (m, generate cfg m tpb num den maxM r0 r1 rs fuel)
  else none

/-- A concrete note whose `next_note_delay` of 100 ticks spans many
4-tick measures. -/
def nx : Note := Note.mk 60 0 0 0 100 0 0 0

/-- A concrete note with zero delay. -/
def ny : Note := Note.mk 62 0 0 0 0 0 0 0

/-- The default configuration with Markov order 1. -/
def cfg1 : Config :=
  { order := 1, velocity_rounding := 40, duration_rounding := 2000
    tempo_rounding := 1000000000 }

/-- The index trained (order 1, weight 1) on the sequence nx, ny, nx. -/
def m4 : CMap := add_to_map cfg1 [] [nx, ny, nx] 1

/-- The index trained on the single one-note sequence nx: its only
continuation list is the singleton terminal marker. -/
def m1 : CMap := add_to_map mmCfg [] [nx] 1

theorem genLoop_none_m1 (tpm : Rat) (maxM : Option Int) :
    ∀ (fuel : Nat) (rs : List Rat) (acc measures : Int),
      genLoop mmCfg m1 tpm maxM fuel rs [none] acc measures = [none] := by
  intro fuel rs acc measures
  cases fuel with
  | zero => rfl
  | succ f =>
    have hfm : findMatch mmCfg m1 [none] = none := by decide
    simp [genLoop, hfm]

/-- Claim C1 (the code slip): on the index trained from a single one-note
sequence, `generate` deterministically returns `[None]` — the seed drawn
from the only continuation list is the terminal marker, which the seeding
step never filters out, so the output contains the terminal marker (and
`write_to_file` would then crash reading `.tempo` on it).  This holds for
every random oracle and every fuel. -/
theorem c1_seed_can_be_terminal (tpb num den : Int) (maxM : Option Int) (r0 r1 : Nat)
    (rs : List Rat) (fuel : Nat) :
    generate mmCfg m1 tpb num den maxM r0 r1 rs fuel = [none] := by
  rw [generate]
  have hne : m1.isEmpty = false := by decide
  rw [hne]
  simp only [Bool.false_eq_true, if_false]
  have hvals : m1.map (fun p => p.2) = [[(none, 1)]] := by decide
  rw [hvals]
  simp only [List.length_singleton, Nat.mod_one, List.getD_cons_zero]
  exact genLoop_none_m1 _ maxM fuel rs 0 0

/-- Counterexample for C5: with a single source and the non-positive
weight -1, `run` performs no validation at all — it proceeds to train
(producing an entry with count -1) and to generate, instead of reporting
a configuration error and stopping. -/
theorem c5_counterexample :
    run mmCfg [[nx]] (some [(-1 : Rat)]) 1 4 4 none 0 0 [] 1
      = some ([([some (nx.rounded 40 2000 1000000000)], [(none, -1)])], [none])
    ∧ ¬ (0 < (-1 : Rat)) := by
  exact ⟨by with_unfolding_all rfl, by decide⟩

/-- Claim C5 as amended: the only configuration check `run` performs is
the weight-count mismatch, which stops the run (no training, no
generation) — with explicit weights the run refuses exactly when the
weight count differs from the source count, and with defaulted weights it
always proceeds.  Non-positive orders and weights are accepted silently;
the quantization moduli are hardcoded positive constants. -/
theorem c5_amended_only_count_checked (cfg : Config) (sources : List (List Note))
    (ws : List Rat) (tpb num den : Int) (maxM : Option Int) (r0 r1 : Nat)
    (rs : List Rat) (fuel : Nat) :
    (run cfg sources (some ws) tpb num den maxM r0 r1 rs fuel = none
      ↔ ws.length ≠ sources.length)
    ∧ run cfg sources none tpb num den maxM r0 r1 rs fuel ≠ none := by
  constructor
  · rw [run]
    by_cases h : ws.length = sources.length <;> simp [h]
  · rw [run]
    simp

/-- Witness for C5 amended: an empty weight list against one source is
refused before training. -/
theorem c5_amended_only_count_checked_witness :
    run mmCfg [[nx]] (some []) 1 4 4 none 0 0 [] 1 = none :=
  (c5_amended_only_count_checked mmCfg [[nx]] [] 1 4 4 none 0 0 [] 1).1.mpr (by decide)

/-- Counterexample for C4: ticksPerMeasure is 1 * 4 * (4 / 4) = 4 and the
maximum measure count is 1.  The seed note nx alone has delay 100 ≥ 4 * 1,
so under the claim (accumulated ticks include the seed, the counter rises
with every crossed multiple, and generation stops on reaching the
maximum) the output would be just the seed `[some nx]`.  The code instead
starts accumulating at 0 after the seed and appends two further notes. -/
theorem c4_counterexample :
    generate cfg1 m4 1 4 4 (some 1) 1 0 [0, 0, 0, 0] 10 = [some nx, some ny, some nx]
    ∧ generate cfg1 m4 1 4 4 (some 1) 1 0 [0, 0, 0, 0] 10 ≠ [some nx]
    ∧ (1 : Rat) * 4 * (4 / 4) * 1 ≤ ((nx.next_note_delay : Int) : Rat) := by
  refine ⟨by with_unfolding_all decide, by with_unfolding_all decide,
    by with_unfolding_all decide⟩

theorem genLoop_eq_genLoopSpec (cfg : Config) (m : CMap) (tpm : Rat) (maxM : Option Int) :
    ∀ (fuel : Nat) (rs : List Rat) (current : List NCont) (appended : List Note)
      (acc measures : Int), acc = delaySum appended →
      genLoop cfg m tpm maxM fuel rs current acc measures
        = genLoopSpec cfg m tpm maxM fuel rs current appended measures := by
  intro fuel
  induction fuel with
  | zero => intros; rfl
  | succ f ih =>
    intro rs current appended acc measures hacc
    simp only [genLoop, genLoopSpec]
    cases hfm : findMatch cfg m current with
    | none => rfl
    | some e =>
      simp only [hfm]
      cases hp : pick e (rs.headD 0) with
      | none => rfl
      | some note =>
        simp only [hp]
        have heq : acc + note.next_note_delay = delaySum (appended ++ [note]) := by
          rw [hacc]
          simp [delaySum]
        rw [heq]
        by_cases hc : tpm * ((measures : Rat) + 1)
            ≤ ((delaySum (appended ++ [note]) : Int) : Rat)
        · rw [if_pos hc, if_pos hc]
          cases maxM with
          | some mm =>
            dsimp only
            by_cases hmm : mm ≤ measures + 1
            · rw [if_pos hmm, if_pos hmm]
            · rw [if_neg hmm, if_neg hmm]
              exact ih rs.tail _ _ _ _ rfl
          | none => exact ih rs.tail _ _ _ _ rfl
        · rw [if_neg hc, if_neg hc]
          exact ih rs.tail _ _ _ _ rfl

/-- Claim C4 as amended: `ticksPerMeasure = ticksPerBeat × numerator ×
(4 / denominator)`, and `accumulatedTicks` is the sum of
`next_note_delay` over the notes appended by the main loop — the seed's
delay is not counted.  After each appended note the measure counter
increments by exactly one if the accumulated sum has reached
`ticksPerMeasure × (counter + 1)` (a note spanning several boundaries
still adds only one; later notes catch up), and generation stops
immediately after appending the note whose increment makes the counter
reach the configured maximum.  Formally: `generate` coincides with the
spec-level `generateSpec`, which recomputes the accumulator as that sum. -/
theorem c4_amended_accumulation (cfg : Config) (m : CMap) (tpb num den : Int)
    (maxM : Option Int) (r0 r1 : Nat) (rs : List Rat) (fuel : Nat) :
    generate cfg m tpb num den maxM r0 r1 rs fuel
      = generateSpec cfg m tpb num den maxM r0 r1 rs fuel := by
  simp only [generate, generateSpec]
  cases h : m.isEmpty
  · simp only [Bool.false_eq_true, if_false]
    exact genLoop_eq_genLoopSpec cfg m _ maxM fuel rs _ [] 0 0 rfl
  · rfl

/-- Claim C2: at every step the candidate context windows are exactly the
quantized suffixes of the current output of lengths `min(order, len)`
down to 1, tried longest first; the continuation entry used is the first
(longest) window found in the index; every candidate has length at least
1 and at most `order` (so no window longer than `order` is ever looked
up); and when no candidate matches the loop returns the output as is. -/
theorem c2_backoff_longest_first (cfg : Config) (m : CMap) (current : List NCont) :
    (findMatch cfg m current
      = ((List.range (min cfg.order current.length)).map
          (fun i => min cfg.order current.length - i)).findSome?
        (fun L => mapFind m (roundList cfg (current.drop (current.length - L)))))
    ∧ (∀ L ∈ (List.range (min cfg.order current.length)).map
          (fun i => min cfg.order current.length - i),
        1 ≤ L ∧ L ≤ cfg.order ∧ (current.drop (current.length - L)).length = L)
    ∧ (∀ (tpm : Rat) (maxM : Option Int) (fuel : Nat) (rs : List Rat)
        (acc measures : Int), findMatch cfg m current = none →
        genLoop cfg m tpm maxM (fuel + 1) rs current acc measures = current) := by
  refine ⟨?_, ?_, ?_⟩
  · rw [findMatch]
    have h1 : current.length - (current.length - cfg.order)
        = min cfg.order current.length := by omega
    rw [h1, findSome?_map_fn]
    apply findSome?_congr
    intro i hi
    have hi2 : i < min cfg.order current.length := List.mem_range.mp hi
    have h2 : current.length - cfg.order + i
        = current.length - (min cfg.order current.length - i) := by omega
    rw [h2]
  · intro L hL
    obtain ⟨i, hi, rfl⟩ := List.mem_map.mp hL
    have hi2 : i < min cfg.order current.length := List.mem_range.mp hi
    refine ⟨by omega, by omega, ?_⟩
    rw [List.length_drop]
    omega
  · intro tpm maxM fuel rs acc measures h
    simp [genLoop, h]

/-- Witness for C2: with an empty index nothing matches and one loop step
returns the current output unchanged. -/
theorem c2_backoff_longest_first_witness :
    genLoop cfg1 ([] : CMap) 4 (some 1) 1 [] [some nx] 0 0 = [some nx] :=
  (c2_backoff_longest_first cfg1 [] [some nx]).2.2 4 (some 1) 0 [] 0 0 (by decide)

theorem pick_mem (e : Entry) (r : Rat) (he : e ≠ []) : pick e r ∈ e.map Prod.fst := by
  induction e generalizing r with
  | nil => exact absurd rfl he
  | cons q rest ih =>
    obtain ⟨c, w⟩ := q
    cases rest with
    | nil => simp [pick]
    | cons q2 rest2 =>
      rw [pick]
      by_cases h : r < w
      · simp [h]
      · rw [if_neg h]
        exact List.mem_cons_of_mem _ (ih (r - w) (by simp))

theorem pick_eq_some_mem {e : Entry} {r : Rat} {n : Note} (h : pick e r = some n) :
    some n ∈ e.map Prod.fst := by
  have hne : e ≠ [] := by
    intro he
    subst he
    simp [pick] at h
  have hm := pick_mem e r hne
  rw [h] at hm
  exact hm

theorem mapFind_mem {m : CMap} {k : Key} {e : Entry} (h : mapFind m k = some e) :
    ∃ k0, (k0, e) ∈ m := by
  induction m with
  | nil => simp [mapFind] at h
  | cons p rest ih =>
    obtain ⟨k0, e0⟩ := p
    by_cases hk : keyEq k0 k = true
    · rw [mapFind, if_pos hk] at h
      have he : e0 = e := Option.some.inj h
      exact ⟨k0, by rw [← he]; exact List.mem_cons_self _ _⟩
    · rw [mapFind, if_neg hk] at h
      obtain ⟨k1, hk1⟩ := ih h
      exact ⟨k1, List.mem_cons_of_mem _ hk1⟩

theorem findMatch_entry {cfg : Config} {m : CMap} {current : List NCont} {e : Entry}
    (h : findMatch cfg m current = some e) : ∃ k0, (k0, e) ∈ m := by
  rw [findMatch] at h
  obtain ⟨i, hi, hfi⟩ := exists_of_findSome?_eq _ _ _ h
  exact mapFind_mem hfi

theorem genLoop_mem (cfg : Config) (m : CMap) (tpm : Rat) (maxM : Option Int) :
    ∀ (fuel : Nat) (rs : List Rat) (current : List NCont) (acc measures : Int)
      (c : NCont), c ∈ genLoop cfg m tpm maxM fuel rs current acc measures →
      c ∈ current ∨ (c ≠ none ∧ ∃ p ∈ m, c ∈ p.2.map Prod.fst) := by
  intro fuel
  induction fuel with
  | zero => intro rs current acc measures c hc; exact Or.inl hc
  | succ f ih =>
    intro rs current acc measures c hc
    rw [genLoop] at hc
    cases hfm : findMatch cfg m current with
    | none =>
      rw [hfm] at hc
      exact Or.inl hc
    | some e =>
      simp only [hfm] at hc
      cases hp : pick e (rs.headD 0) with
      | none =>
        simp only [hp] at hc
        exact Or.inl hc
      | some note =>
        simp only [hp] at hc
        have hnote : (some note : NCont) ≠ none
            ∧ ∃ p ∈ m, (some note : NCont) ∈ p.2.map Prod.fst := by
          obtain ⟨k0, hk0⟩ := findMatch_entry hfm
          exact ⟨by simp, ⟨(k0, e), hk0, pick_eq_some_mem hp⟩⟩
        have hstep : c ∈ current ++ [some note] →
            c ∈ current ∨ (c ≠ none ∧ ∃ p ∈ m, c ∈ p.2.map Prod.fst) := by
          intro h1
          rcases List.mem_append.mp h1 with h2 | h2
          · exact Or.inl h2
          · have h3 : c = some note := by simpa using h2
            exact Or.inr (h3 ▸ hnote)
        have hrec : ∀ (rs2 : List Rat) (acc2 meas2 : Int),
            c ∈ genLoop cfg m tpm maxM f rs2 (current ++ [some note]) acc2 meas2 →
            c ∈ current ∨ (c ≠ none ∧ ∃ p ∈ m, c ∈ p.2.map Prod.fst) := by
          intro rs2 acc2 meas2 hcc
          rcases ih rs2 _ acc2 meas2 c hcc with h1 | h1
          · exact hstep h1
          · exact Or.inr h1
        by_cases hcond : tpm * ((measures : Rat) + 1)
            ≤ ((acc + note.next_note_delay : Int) : Rat)
        · rw [if_pos hcond] at hc
          cases maxM with
          | some mm =>
            dsimp only at hc
            by_cases hmm : mm ≤ measures + 1
            · rw [if_pos hmm] at hc
              exact hstep hc
            · rw [if_neg hmm] at hc
              exact hrec _ _ _ hc
          | none => exact hrec _ _ _ hc
        · rw [if_neg hcond] at hc
          exact hrec _ _ _ hc

theorem entry_conts_mapAdd {m : CMap} {k : Key} {c : NCont} {w : Rat} :
    ∀ p ∈ mapAdd m k c w, ∀ x ∈ p.2.map Prod.fst,
      (∃ p1 ∈ m, x ∈ p1.2.map Prod.fst) ∨ x = c := by
  induction m with
  | nil =>
    intro p hp x hx
    simp [mapAdd, addPair] at hp
    subst hp
    simp at hx
    exact Or.inr hx
  | cons q rest ih =>
    obtain ⟨k0, e0⟩ := q
    intro p hp x hx
    by_cases hk : keyEq k0 k = true
    · rw [mapAdd, if_pos hk] at hp
      rcases List.mem_cons.mp hp with hp1 | hp1
      · subst hp1
        obtain ⟨q1, hq1, hq2⟩ := List.mem_map.mp hx
        rcases mem_addPair_fst e0 c w q1 hq1 with h1 | h1
        · exact Or.inl ⟨(k0, e0), List.mem_cons_self _ _, hq2 ▸ h1⟩
        · exact Or.inr (hq2 ▸ h1)
      · exact Or.inl ⟨p, List.mem_cons_of_mem _ hp1, hx⟩
    · rw [mapAdd, if_neg hk] at hp
      rcases List.mem_cons.mp hp with hp1 | hp1
      · subst hp1
        exact Or.inl ⟨(k0, e0), List.mem_cons_self _ _, hx⟩
      · rcases ih p hp1 x hx with ⟨p1, hp2, hp3⟩ | h1
        · exact Or.inl ⟨p1, List.mem_cons_of_mem _ hp2, hp3⟩
        · exact Or.inr h1

theorem conts_foldl_mapAdd (key : Nat → Key) (c : NCont) (w : Rat) :
    ∀ (ts : List Nat) (m : CMap), ∀ p ∈ ts.foldl (fun m2 t => mapAdd m2 (key t) c w) m,
      ∀ x ∈ p.2.map Prod.fst, (∃ p1 ∈ m, x ∈ p1.2.map Prod.fst) ∨ x = c := by
  intro ts
  induction ts with
  | nil => intro m p hp x hx; exact Or.inl ⟨p, hp, hx⟩
  | cons t ts ih =>
    intro m p hp x hx
    rw [List.foldl_cons] at hp
    rcases ih _ p hp x hx with ⟨p1, hp2, hp3⟩ | h1
    · exact entry_conts_mapAdd p1 hp2 x hp3
    · exact Or.inr h1

theorem conts_add_to_map (cfg : Config) (notes : List Note) (w : Rat) :
    ∀ (m : CMap), ∀ p ∈ add_to_map cfg m notes w, ∀ x ∈ p.2.map Prod.fst,
      (∃ p1 ∈ m, x ∈ p1.2.map Prod.fst) ∨ x = none ∨ ∃ n ∈ notes, x = some n := by
  suffices h : ∀ (is : List Nat) (m : CMap),
      ∀ p ∈ is.foldl (fun m1 i =>
        (List.range (min cfg.order (i + 1))).foldl (fun m2 t =>
          mapAdd m2 (windowKey cfg notes (i - t) i) (notes.get? (i + 1)) w) m1) m,
      ∀ x ∈ p.2.map Prod.fst,
        (∃ p1 ∈ m, x ∈ p1.2.map Prod.fst) ∨ ∃ i, x = notes.get? (i + 1) by
    intro m p hp x hx
    rcases h (List.range notes.length) m p hp x hx with h1 | ⟨i, hi⟩
    · exact Or.inl h1
    · cases hg : notes.get? (i + 1) with
      | none => exact Or.inr (Or.inl (hg ▸ hi))
      | some n => exact Or.inr (Or.inr ⟨n, List.get?_mem hg, hg ▸ hi⟩)
  intro is
  induction is with
  | nil => intro m p hp x hx; exact Or.inl ⟨p, hp, hx⟩
  | cons i is ih =>
    intro m p hp x hx
    rw [List.foldl_cons] at hp
    rcases ih _ p hp x hx with h1 | h1
    · obtain ⟨p1, hp2, hp3⟩ := h1
      rcases conts_foldl_mapAdd (fun t => windowKey cfg notes (i - t) i)
          (notes.get? (i + 1)) w (List.range (min cfg.order (i + 1))) m p1 hp2 x hp3
        with h2 | h2
      · exact Or.inl h2
      · exact Or.inr ⟨i, h2⟩
    · exact Or.inr h1

theorem conts_trainAll (cfg : Config) :
    ∀ (sources : List (List Note × Rat)) (m : CMap),
      ∀ p ∈ sources.foldl (fun m1 s => add_to_map cfg m1 s.1 s.2) m,
      ∀ x ∈ p.2.map Prod.fst,
        (∃ p1 ∈ m, x ∈ p1.2.map Prod.fst) ∨ x = none
          ∨ ∃ s ∈ sources, ∃ n ∈ s.1, x = some n := by
  intro sources
  induction sources with
  | nil => intro m p hp x hx; exact Or.inl ⟨p, hp, hx⟩
  | cons s ss ih =>
    intro m p hp x hx
    rw [List.foldl_cons] at hp
    rcases ih _ p hp x hx with h1 | h1 | h1
    · obtain ⟨p1, hp2, hp3⟩ := h1
      rcases conts_add_to_map cfg s.1 s.2 m p1 hp2 x hp3 with h2 | h2 | h2
      · exact Or.inl h2
      · exact Or.inr (Or.inl h2)
      · obtain ⟨n, hn, hxn⟩ := h2
        exact Or.inr (Or.inr ⟨s, List.mem_cons_self _ _, n, hn, hxn⟩)
    · exact Or.inr (Or.inl h1)
    · obtain ⟨s1, hs1, hrest⟩ := h1
      exact Or.inr (Or.inr ⟨s1, List.mem_cons_of_mem _ hs1, hrest⟩)

/-- Claim C10: `pick` always returns an element of the option list it is
given; consequently every element the generation loop appends beyond the
initial output is a non-terminal continuation stored in the index (the
loop breaks before appending when `pick` yields the terminal marker), and
every such stored concrete note is a verbatim note of one of the training
sequences. -/
theorem c10_pick_within_options :
    (∀ (e : Entry) (r : Rat), e ≠ [] → pick e r ∈ e.map Prod.fst)
    ∧ (∀ (cfg : Config) (m : CMap) (tpm : Rat) (maxM : Option Int) (fuel : Nat)
        (rs : List Rat) (current : List NCont) (acc measures : Int) (c : NCont),
        c ∈ genLoop cfg m tpm maxM fuel rs current acc measures →
        c ∈ current ∨ (c ≠ none ∧ ∃ p ∈ m, c ∈ p.2.map Prod.fst))
    ∧ (∀ (cfg : Config) (sources : List (List Note × Rat)) (p : Key × Entry)
        (n : Note), p ∈ trainAll cfg sources → some n ∈ p.2.map Prod.fst →
        ∃ s ∈ sources, n ∈ s.1) := by
  refine ⟨pick_mem, fun cfg m tpm maxM => genLoop_mem cfg m tpm maxM, ?_⟩
  intro cfg sources p n hp hx
  rw [trainAll] at hp
  rcases conts_trainAll cfg sources [] p hp (some n) hx with h1 | h1 | h1
  · obtain ⟨p1, hp1, -⟩ := h1
    exact absurd hp1 (List.not_mem_nil p1)
  · exact absurd h1 (by simp)
  · obtain ⟨s, hs, n1, hn1, hx1⟩ := h1
    have : n1 = n := by
      injection hx1.symm
    exact ⟨s, hs, this ▸ hn1⟩

/-- Witness for C10: a concrete pick from a singleton entry, a concrete
note appended by a concrete loop run, and a concrete stored continuation
traced back to its training sequence. -/
theorem c10_pick_within_options_witness :
    pick [((some ny : NCont), (1 : Rat))] 0 ∈ [((some ny : NCont), (1 : Rat))].map Prod.fst
    ∧ ((some ny : NCont) ∈ ([some nx] : List NCont)
        ∨ ((some ny : NCont) ≠ none ∧ ∃ p ∈ m4, (some ny : NCont) ∈ p.2.map Prod.fst))
    ∧ ∃ s ∈ [([nx, ny, nx], (1 : Rat))], ny ∈ s.1 :=
  ⟨c10_pick_within_options.1 [((some ny : NCont), (1 : Rat))] 0 (by simp),
   c10_pick_within_options.2.1 cfg1 m4 4 (some 1) 10 [0, 0, 0, 0] [some nx] 0 0 (some ny)
     (by with_unfolding_all decide),
   c10_pick_within_options.2.2 cfg1 [([nx, ny, nx], (1 : Rat))]
     ([some (nx.rounded 40 2000 1000000000)], [((some ny : NCont), (1 : Rat)), (none, 1)])
     ny (by with_unfolding_all decide) (by decide)⟩
